import Mathlib

/-!
Verification development for the `ogg_xiph` crate: a Rust wrapper around the
libogg container library.  The Rust sources under `src/` are embedded
shallowly below; the libogg state machines that the wrapper calls through FFI
(`ogg_stream_*`, `ogg_sync_*`) are not part of the repository's sources and
are modelled from the specification where a claim depends on them.

Bytes are modelled as `Nat` values (< 256 where it matters), byte buffers as
`List Nat`, C `long` fields as `Int`, and fallible Rust functions as `Except`
(with `Option` marking the panicking paths).
-/

deriving instance DecidableEq for Except

namespace OggXiph

/-! ## Page header layout (src/page.rs)

Constants and accessors translated from `src/page.rs`.  A raw page header is
a byte list; accessors index into it exactly as the Rust code indexes the
header slice. -/

def HEADER_VERSION : Nat := 4

def HEADER_TYPE : Nat := 5

def HEADER_GRANULE_POSITION : Nat := 6

def HEADER_PAGE_SERIAL_NUMBER : Nat := 14

def HEADER_SEQUENCE_NUMBER : Nat := 18

def HEADER_CHECKSUM : Nat := 22

def HEADER_SIZE_MIN : Nat := 28

/-- `Page::version`: byte 4 of the header. -/
def pageVersion (h : List Nat) : Nat := h.getD HEADER_VERSION 0

/-- `Page::header_type`: byte 5 of the header. -/
def pageHeaderType (h : List Nat) : Nat := h.getD HEADER_TYPE 0

/-- `Page::continues_packet`: `[1, 3, 7].contains(&self.header_type())`. -/
def pageContinuesPacket (h : List Nat) : Bool :=
  [1, 3, 7].contains (pageHeaderType h)

/-- `Page::begins_logical_stream`: `[2, 6, 7].contains(&self.header_type())`. -/
def pageBeginsLogicalStream (h : List Nat) : Bool :=
  [2, 6, 7].contains (pageHeaderType h)

/-- `Page::ends_logical_stream`: `[4, 6, 7].contains(&self.header_type())`. -/
def pageEndsLogicalStream (h : List Nat) : Bool :=
  [4, 6, 7].contains (pageHeaderType h)

/-- Little-endian value of a byte list (each byte reduced mod 256, as the
Rust byte type guarantees). -/
def leVal (bytes : List Nat) : Nat :=
  bytes.foldr (fun b acc => b % 256 + 256 * acc) 0

/-- `Page::absgp`: `u64::from_le_bytes(header[6..14])` — an unsigned 64-bit
little-endian read of the granule-position field. -/
def pageAbsgp (h : List Nat) : Nat :=
  leVal ((h.drop HEADER_GRANULE_POSITION).take 8)

/-- `Page::stream_serial`: `i32::from_le_bytes(header[14..18])`, as a signed
32-bit value. -/
def pageStreamSerial (h : List Nat) : Int :=
  let u := leVal ((h.drop HEADER_PAGE_SERIAL_NUMBER).take 4)
  if u < 2 ^ 31 then (u : Int) else (u : Int) - 2 ^ 32

/-- `Page::index`: `u32::from_le_bytes(header[18..22])`. -/
def pageIndex (h : List Nat) : Nat :=
  leVal ((h.drop HEADER_SEQUENCE_NUMBER).take 4)

/-- `Page::crc_checksum`: `u32::from_le_bytes(header[22..26])`. -/
def pageCrcChecksum (h : List Nat) : Nat :=
  leVal ((h.drop HEADER_CHECKSUM).take 4)

/-- The signed (two's-complement, 64-bit) little-endian interpretation of the
granule-position bytes, as the specification describes the field
(`granule_position: i64`, −1 meaning undetermined).  This follows the spec's
words, for comparison against the accessor translated from the source. -/
def pageAbsgpSigned (h : List Nat) : Int :=
  let u := leVal ((h.drop HEADER_GRANULE_POSITION).take 8)
  if u < 2 ^ 63 then (u : Int) else (u : Int) - 2 ^ 64

/-- `InvalidPageHeader` from src/page.rs. -/
inductive InvalidPageHeader where
  | NoMagicString : InvalidPageHeader
  | BadVersion : Nat → InvalidPageHeader
  | TooShort : InvalidPageHeader
deriving DecidableEq

/-- `validate_header` from src/page.rs: length checked against
`HEADER_SIZE_MIN = 28`, then the four magic bytes, then the version byte. -/
def validateHeader (h : List Nat) : Except InvalidPageHeader Unit :=
  if h.length < HEADER_SIZE_MIN then .error .TooShort
  else if ¬ (h.take 4 = [79, 103, 103, 83]) then .error .NoMagicString
  else if h.getD HEADER_VERSION 0 ≠ 0 then .error (.BadVersion (h.getD HEADER_VERSION 0))
  else .ok ()

/-! ## Packet wrapping (src/packet.rs)

`Packet::try_from` receives a raw `ogg_packet` record whose fields are C
`long`s; `usize::try_from` on a 64-bit `c_long` fails exactly on negative
values. -/

/-- The fields of a raw `ogg_packet` as `Packet::try_from` sees them,
together with the bytes behind the data pointer. -/
structure RawPacket where
  bytes : Int
  b_o_s : Int
  e_o_s : Int
  granulepos : Int
  packetno : Int
  dataBytes : List Nat
deriving DecidableEq

/-- `PacketInitError` from src/packet.rs (the `TryFromIntError` payloads are
erased — they are zero-information unit-like values). -/
inductive PacketInitError where
  | Usize : PacketInitError
  | U8 : PacketInitError
  | InvalidBeginningOfStream : Int → PacketInitError
  | InvalidEndOfStream : Int → PacketInitError
deriving DecidableEq

/-- `Packet::try_from`: fails with `Usize` when `bytes` is not convertible,
then with `InvalidBeginningOfStream` unless `b_o_s ∈ {0, 256}`, then with
`InvalidEndOfStream` unless `e_o_s ∈ {0, 512}`; on success the `Packet` wraps
the raw record unchanged (`owned: None`). -/
def packetTryFrom (p : RawPacket) : Except PacketInitError RawPacket :=
  if p.bytes < 0 then .error .Usize
  else if ¬ (p.b_o_s = 0 ∨ p.b_o_s = 256) then .error (.InvalidBeginningOfStream p.b_o_s)
  else if ¬ (p.e_o_s = 0 ∨ p.e_o_s = 512) then .error (.InvalidEndOfStream p.e_o_s)
  else .ok p

/-- `Packet::begins_logical_stream` in the `owned: None` case:
`self.packet.b_o_s != 0`. -/
def packetBeginsLogicalStream (p : RawPacket) : Bool := p.b_o_s ≠ 0

/-- `Packet::ends_logical_stream` in the `owned: None` case:
`self.packet.e_o_s != 0`. -/
def packetEndsLogicalStream (p : RawPacket) : Bool := p.e_o_s ≠ 0

/-- `Packet::absgp` in the `owned: None` case: `self.packet.granulepos as
u64`, the two's-complement cast from a signed 64-bit value. -/
def packetAbsgp (p : RawPacket) : Nat := (p.granulepos % 2 ^ 64).toNat

/-! ### Concrete inputs used by the claim theorems below -/

/-- A syntactically minimal header: magic bytes, version 0, 27 bytes total —
the length the specification calls the minimum header size. -/
def header27 : List Nat := [79, 103, 103, 83, 0] ++ List.replicate 22 0

/-- A 28-byte header whose type byte (byte 5) is the given value. -/
def headerWithType (t : Nat) : List Nat :=
  [79, 103, 103, 83, 0, t] ++ List.replicate 22 0

/-- A 28-byte header whose granule-position bytes 6..14 are all `0xFF`
(the two's-complement encoding of −1). -/
def headerGranuleFF : List Nat :=
  [79, 103, 103, 83, 0, 0] ++ List.replicate 8 255 ++ List.replicate 14 0

/-! ## Byte synchronizer (src/sync_state.rs over a modelled sync layer)

`SyncState` wraps the libogg `ogg_sync_state`; the wrapper's `write`,
`submit_bytes` and `is_synced` are translated from src/sync_state.rs, while
the buffer management of `ogg_sync_buffer`/`ogg_sync_wrote` and the page
scanner `ogg_sync_pageout` are not in the repository's sources and are
modelled from the specification. -/

/-- The CRC polynomial of the page checksum (spec §4.1). -/
def OGG_POLY : Nat := 0x04C11DB7

/-- One most-significant-bit-first CRC shift step over a 32-bit register. -/
def crcShift (s : Nat) : Nat :=
  if s.testBit 31 then ((s * 2) ^^^ OGG_POLY) % 2 ^ 32 else (s * 2) % 2 ^ 32

/-- Modelled from the spec: one byte of the CRC-32 variant of §4.1 — the
byte enters at the top of the register and eight unreflected shift steps
follow (polynomial 0x04C11DB7, no reflection). -/
def crcUpdate (r b : Nat) : Nat :=
  crcShift (crcShift (crcShift (crcShift (crcShift (crcShift (crcShift (crcShift
    (r ^^^ ((b % 256) * 2 ^ 24)))))))))

/-- Modelled from the spec: `compute_checksum` — initial value 0, no output
reflection, over the header (checksum field zeroed) followed by the body. -/
def oggCrc (bytes : List Nat) : Nat := bytes.foldl crcUpdate 0

/-- Whether the four capture-pattern bytes `O g g S` occur at offset `i`. -/
def captureAt (buf : List Nat) (i : Nat) : Bool :=
  decide (((buf.drop i).take 4) = [79, 103, 103, 83])

/-- Offset of the first capture pattern in the buffer, if any. -/
def findCapture : List Nat → Option Nat
  | [] => none
  | b :: rest =>
    if captureAt (b :: rest) 0 then some 0 else (findCapture rest).map (· + 1)

/-- Result of attempting to parse one complete page at the head of the
buffer. -/
inductive ParseResult where
  | needData : ParseResult
  | badCrc : ParseResult
  | page : List Nat → List Nat → List Nat → ParseResult
deriving DecidableEq

/-- Declared segment count of the page starting at the buffer head: the
byte at offset 26. -/
def pageNsegs (buf : List Nat) : Nat := buf.getD 26 0 % 256

/-- Lacing values of the page starting at the buffer head. -/
def pageSegs (buf : List Nat) : List Nat :=
  ((buf.drop 27).take (pageNsegs buf)).map (· % 256)

/-- Body length of the page starting at the buffer head: the sum of its
lacing values. -/
def pageBodyLen (buf : List Nat) : Nat := (pageSegs buf).sum

/-- Total byte length of the page starting at the buffer head. -/
def pageTotal (buf : List Nat) : Nat := 27 + pageNsegs buf + pageBodyLen buf

/-- The raw header (fixed part plus lacing table) of the page starting at
the buffer head. -/
def pageHeaderRaw (buf : List Nat) : List Nat := buf.take (27 + pageNsegs buf)

/-- The body bytes of the page starting at the buffer head. -/
def pageBodyRaw (buf : List Nat) : List Nat :=
  (buf.drop (27 + pageNsegs buf)).take (pageBodyLen buf)

/-- Checksum test for the page starting at the buffer head: the CRC over
the header with its checksum field zeroed, followed by the body, compared
with the stored checksum bytes 22..26. -/
def pageCrcOk (buf : List Nat) : Bool :=
  decide (oggCrc ((pageHeaderRaw buf).take HEADER_CHECKSUM ++ [0, 0, 0, 0]
      ++ (pageHeaderRaw buf).drop 26 ++ pageBodyRaw buf)
    = leVal ((buf.drop HEADER_CHECKSUM).take 4))

/-- Modelled from the spec: parse one page at the buffer head (§4.2/§6) —
with at least a 27-byte fixed header present, read the segment count at
offset 26 and the lacing table, compute the body length as the sum of lacing
values, require the full page to be buffered, and compare the stored
checksum against the CRC of the page with its checksum field zeroed.
Returns the header (fixed part plus lacing table), the body, and the
remaining buffer. -/
def parsePage (buf : List Nat) : ParseResult :=
  if buf.length < 27 then .needData
  else if buf.length < 27 + pageNsegs buf then .needData
  else if buf.length < pageTotal buf then .needData
  else if pageCrcOk buf then .page (pageHeaderRaw buf) (pageBodyRaw buf) (buf.drop (pageTotal buf))
  else .badCrc

/-- The modelled `ogg_sync_state`: the buffered unread bytes and the
`unsynced` flag read by `SyncState::is_synced`. -/
structure MSync where
  buffer : List Nat
  unsynced : Bool
deriving DecidableEq

/-- The three outcomes of `ogg_sync_pageout` (−1 / 0 / 1). -/
inductive PageOutResult where
  | skipped : PageOutResult
  | needData : PageOutResult
  | page : List Nat → List Nat → PageOutResult
deriving DecidableEq

/-- Modelled from the spec: the extraction scan of `ogg_sync_pageout`
(§4.2).  With fewer bytes than a fixed header buffered the scan reports
need-more-data (0) and preserves the buffer.  Otherwise the buffer is
scanned for the capture pattern: a byte that does not open the pattern — or
a found pattern whose checksum fails (a false match) — is skipped; skipping
while in sync reports the out-of-sync condition exactly once (−1 /
`skipped`) and sets `unsynced`, and further skipping while already out of
sync continues silently.  A found pattern whose page is incomplete leaves
the cursor at the pattern start and reports need-more-data; a
checksum-valid page is emitted (1) and clears `unsynced`. -/
def pageScan : List Nat → Bool → MSync × PageOutResult
  | [], u => (⟨[], u⟩, .needData)
  | b :: bs, u =>
    if (b :: bs).length < 27 then (⟨b :: bs, u⟩, .needData)
    else if captureAt (b :: bs) 0 then
      match parsePage (b :: bs) with
      | .needData => (⟨b :: bs, u⟩, .needData)
      | .page hd bd rest => (⟨rest, false⟩, .page hd bd)
      | .badCrc => if u then pageScan bs true else (⟨bs, true⟩, .skipped)
    else
      if u then pageScan bs true else (⟨bs, true⟩, .skipped)

/-- One `ogg_sync_pageout` call on the wrapper state. -/
def pageOutStep (s : MSync) : MSync × PageOutResult :=
  pageScan s.buffer s.unsynced

/-- `SyncState::is_synced`: true exactly when the `unsynced` field is 0. -/
def isSynced (s : MSync) : Bool := !s.unsynced

/-- A freshly initialized `SyncState`. -/
def mSyncNew : MSync := ⟨[], false⟩

/-- `PageWriteError` from src/sync_state.rs. -/
inductive PageWriteError where
  | OutOfSync : PageWriteError
  | InternalError : PageWriteError
  | InvalidPage : PageWriteError
deriving DecidableEq

/-- The trailing loop of `SyncState::submit_bytes`, with the number of
buffered bytes as structural recursion fuel: each emitted page consumes at
least its 27 fixed header bytes, so the buffered byte count bounds the
number of pages a single submission can still yield, and with no bytes left
the scan can only report need-more-data, which breaks the loop just as the
zero-fuel case does. -/
def submitLoopAux : Nat → MSync → List (List Nat × List Nat) →
    MSync × Except PageWriteError (List (List Nat × List Nat))
  | 0, s, acc => (s, .ok acc)
  | fuel + 1, s, acc =>
    match pageOutStep s with
    | (s2, .page hd bd) =>
      if validateHeader hd = .ok () then submitLoopAux fuel s2 (acc ++ [(hd, bd)])
      else (s2, .error .InvalidPage)
    | (s2, .skipped) => (s2, .ok acc)
    | (s2, .needData) => (s2, .ok acc)

/-- The trailing loop of `SyncState::submit_bytes`: keep extracting pages
while `ogg_sync_pageout` produces them, validating each header as
`Page::try_from` does; any `ogg_sync_pageout` failure breaks the loop. -/
def submitLoop (s : MSync) (acc : List (List Nat × List Nat)) :
    MSync × Except PageWriteError (List (List Nat × List Nat)) :=
  submitLoopAux s.buffer.length s acc

/-- `SyncState::submit_bytes`: `write` the bytes (this panics — modelled as
`none` — when the slice is empty, because `NonZeroUsize::try_from(0)` is
unwrapped with `expect`), then return `Ok(None)` if the first
`ogg_sync_pageout` does not produce a page, otherwise collect pages until
one call fails. -/
def submitBytes (s : MSync) (bytes : List Nat) :
    Option (MSync × Except PageWriteError (Option (List (List Nat × List Nat)))) :=
  if bytes.isEmpty then none
  else
    let s1 : MSync := ⟨s.buffer ++ bytes, s.unsynced⟩
    match pageOutStep s1 with
    | (s2, .page hd bd) =>
      if validateHeader hd = .ok () then
        match submitLoop s2 [(hd, bd)] with
        | (s3, .ok pages) => some (s3, .ok (some pages))
        | (s3, .error e) => some (s3, .error e)
      else some (s2, .error .InvalidPage)
    | (s2, .skipped) => some (s2, .ok none)
    | (s2, .needData) => some (s2, .ok none)

instance : DecidableEq (Except PageWriteError (Option (List (List Nat × List Nat)))) :=
  inferInstance

instance : DecidableEq (MSync × Except PageWriteError (Option (List (List Nat × List Nat)))) :=
  instDecidableEqProd

/-- A concrete checksum-valid 28-byte page: type byte 6 (first and last page
of its stream), zero granule position, serial and sequence number, one
lacing entry of length 0, empty body.  The checksum bytes hold the CRC of
the page with the checksum field zeroed (computed below). -/
def pageC4 : List Nat :=
  [79, 103, 103, 83, 0, 6] ++ List.replicate 16 0 ++ [168, 191, 135, 127] ++ [1, 0]

/-! ## Packet assembler (src/stream_state.rs over a modelled codec layer)

`Stream` wraps the libogg `ogg_stream_state`.  The encode direction
(`ogg_stream_packetin`, `ogg_stream_pageout`, `ogg_stream_flush`) and the
decode direction (`ogg_stream_pagein`, `ogg_stream_packetout`) are libogg
code outside this repository's sources; they are modelled from the
specification (§4.1, §4.3). -/

/-- A packet as the assembler sees it: payload bytes, the stream boundary
flags, and the granule position. -/
structure MPacket where
  data : List Nat
  bos : Bool
  eos : Bool
  granulepos : Int
deriving DecidableEq

/-- A page at the assembler layer (§3): header flags, granule position,
lacing values, and body bytes.  The serial number, sequence number and
checksum do not participate in segmentation or reassembly and live at the
byte layer. -/
structure MPage where
  continued : Bool
  bos : Bool
  eos : Bool
  granulepos : Int
  segs : List Nat
  body : List Nat
deriving DecidableEq

/-- One lacing chunk tagged with the granule position of the packet it
belongs to. -/
structure Seg where
  chunk : List Nat
  granulepos : Int
deriving DecidableEq

/-- One buffered lacing chunk on the decode side, tagged with the granule
position and end-of-stream flag of the page it arrived on. -/
structure Entry where
  chunk : List Nat
  granulepos : Int
  eosTag : Bool
deriving DecidableEq

/-- Accumulating worker for `chunks255`: bytes are gathered until a chunk
reaches 255 bytes, which emits it and starts the next chunk; the final
(possibly empty) shorter chunk is always emitted. -/
def chunksAux : List Nat → List Nat → List (List Nat)
  | [], acc => [acc]
  | b :: rest, acc =>
    if acc.length = 254 then (acc ++ [b]) :: chunksAux rest []
    else chunksAux rest (acc ++ [b])

/-- Modelled from the spec (§4.1): the lacing segmentation of one packet
body — full 255-byte chunks, each encoded by the lacing value 255, followed
by one final chunk shorter than 255 bytes whose length is the closing
lacing value.  A packet whose length is a multiple of 255 — in particular
one whose final segment is exactly 255 bytes — ends with a zero-length
closing chunk (the explicit trailing 0 lacing entry). -/
def chunks255 (d : List Nat) : List (List Nat) := chunksAux d []

/-- Modelled from the spec (§4.3 encode): the pending lacing chunks of the
whole packet queue, in submission order, each tagged with its packet's
granule position. -/
def segsOf (ps : List MPacket) : List Seg :=
  (ps.map (fun p => (chunks255 p.data).map (fun c => ⟨c, p.granulepos⟩))).flatten

/-- Accumulating worker for `groups255`: segments are gathered until a page
holds 255 lacing values, which emits it; a final partial page is emitted
only if it is nonempty. -/
def groups255Aux : List Seg → List Seg → List (List Seg)
  | [], acc => if acc.isEmpty then [] else [acc]
  | s :: rest, acc =>
    if acc.length = 254 then (acc ++ [s]) :: groups255Aux rest []
    else groups255Aux rest (acc ++ [s])

/-- Modelled from the spec (§4.3 encode): draining the queue through
`page_out`/`page_flush` cuts the pending lacing chunks into pages of at
most 255 lacing values — full pages while they fill, and a final flushed
partial page. -/
def groups255 (l : List Seg) : List (List Seg) := groups255Aux l []

/-- Modelled from the spec (§3, §9): the granule position an emitted page
carries — that of the last packet completed on the page, or −1
(undetermined) when no packet completes on it.  A chunk shorter than 255
bytes is exactly a packet's closing chunk. -/
def pageGranule (g : List Seg) : Int :=
  match (g.filter (fun s => s.chunk.length < 255)).getLast? with
  | none => -1
  | some s => s.granulepos

/-- Whether a page's trailing chunk spills into the next page: its last
lacing value is a full 255. -/
def groupContinues (g : List Seg) : Bool :=
  match g.getLast? with
  | none => false
  | some s => decide (s.chunk.length = 255)

/-- Modelled from the spec (§4.1, §4.3 encode): build the emitted pages from
the page groups.  The first page of the stream carries bit1 when the
stream's first packet begins the stream; the last page carries bit2 when
the stream's last packet ends it; a page whose first chunk belongs to a
packet opened on an earlier page carries bit0 (`continued`); the segment
table lists the chunk lengths and the body concatenates the chunks. -/
def mkPages : List (List Seg) → Bool → Bool → Bool → Bool → List MPage
  | [], _, _, _, _ => []
  | g :: rest, isFirst, cont, sBos, sEos =>
    { continued := cont
      bos := isFirst && sBos
      eos := rest.isEmpty && sEos
      granulepos := pageGranule g
      segs := g.map (fun s => s.chunk.length)
      body := (g.map (fun s => s.chunk)).flatten } ::
      mkPages rest false (groupContinues g) sBos sEos

/-- Modelled from the spec (§4.3 encode): submit every packet with
`packet_in` and drain all pages with `page_out`/`page_flush`. -/
def encodePages (ps : List MPacket) : List MPage :=
  mkPages (groups255 (segsOf ps)) true false
    (ps.head?.elim false (fun p => p.bos))
    ((ps.getLast?).elim false (fun p => p.eos))

/-- Modelled from the spec (§4.3 decode): cut a page body along its lacing
values back into chunks. -/
def splitSegs : List Nat → List Nat → List (List Nat)
  | [], _ => []
  | l :: ls, body => body.take l :: splitSegs ls (body.drop l)

/-- Modelled from the spec (§4.3 decode): the buffered entries a page
contributes — its chunks, tagged with the page's granule position and
end-of-stream flag. -/
def pageEntries (pg : MPage) : List Entry :=
  (splitSegs pg.segs pg.body).map (fun c => ⟨c, pg.granulepos, pg.eos⟩)

/-- Modelled from the spec (§4.3 decode): walk the buffered lacing data; a
255-byte chunk continues the packet under assembly, a shorter chunk closes
it.  A closed packet is tagged with the granule position of the page it
completes on; it begins the stream when it is the stream's first packet
and the first page carried the begin flag, and ends the stream when it
consumes the final buffered data and its page carried the end flag.  A
trailing run with no closing chunk is an incomplete packet (need more
data) and produces nothing. -/
def asmPackets : List Entry → List Nat → Bool → Bool → List MPacket
  | [], _, _, _ => []
  | e :: rest, acc, isFirst, sBos =>
    if e.chunk.length = 255 then asmPackets rest (acc ++ e.chunk) isFirst sBos
    else ⟨acc ++ e.chunk, isFirst && sBos, rest.isEmpty && e.eosTag, e.granulepos⟩ ::
      asmPackets rest [] false sBos

/-- Modelled from the spec (§4.3 decode): submit every page in order with
`page_in` to a fresh assembler and drain all packets with `packet_out`. -/
def decodePackets (pgs : List MPage) : List MPacket :=
  asmPackets ((pgs.map pageEntries).flatten) [] true
    (pgs.head?.elim false (fun pg => pg.bos))

/-- Two concrete one-byte packets with distinct granule positions, sharing
one page when encoded. -/
def psC1 : List MPacket := [⟨[10], true, false, 1⟩, ⟨[20], false, true, 2⟩]

/-- `PacketOutError` from src/stream_state.rs: the wrapper maps
`ogg_stream_packetout` returning −1 to `OutOfSync`, refuses extraction
before any input with `NoPages`, and maps the return value 0 — libogg's
need-more-data / internal-error result — to `InternalError`. -/
inductive PacketOutError where
  | OutOfSync : PacketOutError
  | NoPages : PacketOutError
  | InternalError : PacketOutError
deriving DecidableEq

/-- `PageInError` from src/stream_state.rs: `WrongSerial (expected,
actual)`; the `InternalError` payload (the failing function name) is
dropped. -/
inductive PageInError where
  | WrongSerial : Int → Int → PageInError
  | InternalError : PageInError
deriving DecidableEq

/-- The wrapper `Stream` over a modelled `ogg_stream_state`: the wrapper's
own `has_pages` flag, and the modelled libogg internals — the pending
encode queue, the buffered decode entries, whether a packet has been
delivered, whether a page has been accepted, and the begin flag of the
first accepted page. -/
structure WStream where
  serial : Int
  has_pages : Bool
  pending : List MPacket
  entries : List Entry
  delivered : Bool
  gotPage : Bool
  firstBos : Bool
deriving DecidableEq

/-- `Stream::new`. -/
def wNew (serial : Int) : WStream := ⟨serial, false, [], [], false, false, false⟩

/-- `Stream::packet_in`: queue the packet through `ogg_stream_packetin`
(modelled from §4.3: append to the pending queue) — and then, exactly as
the source does on the success path, set `has_pages` to `true`. -/
def wPacketIn (s : WStream) (p : MPacket) : WStream :=
  { s with pending := s.pending ++ [p], has_pages := true }

/-- `Stream::page_in`: reject a page whose serial number differs from the
stream's; otherwise hand the page to `ogg_stream_pagein` (modelled from
§4.3: buffer the page's entries, record the first page's begin flag) and
set `has_pages`. -/
def wPageIn (s : WStream) (pageSerial : Int) (pg : MPage) :
    WStream × Except PageInError Unit :=
  if pageSerial ≠ s.serial then (s, .error (.WrongSerial s.serial pageSerial))
  else
    ({ s with
        has_pages := true
        gotPage := true
        entries := s.entries ++ pageEntries pg
        firstBos := if s.gotPage then s.firstBos else pg.bos }, .ok ())

/-- Modelled from the spec (§4.3 decode): extract the next complete packet
from the buffered entries, if one is complete: 255-byte chunks accumulate
and a shorter chunk closes the packet, returning its data, its closing
entry, and the remaining buffer. -/
def nextPacket : List Entry → List Nat → Option (List Nat × Entry × List Entry)
  | [], _ => none
  | e :: rest, acc =>
    if e.chunk.length = 255 then nextPacket rest (acc ++ e.chunk)
    else some (acc ++ e.chunk, e, rest)

/-- `Stream::packet_out`: `NoPages` while the wrapper's `has_pages` flag is
false; otherwise `ogg_stream_packetout` is modelled from §4.3 — it returns
a packet (1) when one is complete in the buffer, and 0 otherwise, which
the wrapper maps to `InternalError`; −1 (`OutOfSync`) arises only from
loss, which this loss-free model does not produce. -/
def wPacketOut (s : WStream) : WStream × Except PacketOutError MPacket :=
  if ¬ s.has_pages then (s, .error .NoPages)
  else
    match nextPacket s.entries [] with
    | none => (s, .error .InternalError)
    | some (d, cl, rest) =>
      ({ s with entries := rest, delivered := true },
        .ok ⟨d, !s.delivered && s.firstBos, rest.isEmpty && cl.eosTag, cl.granulepos⟩)

/-- A page whose single packet spills past its end: one full lacing value
of 255 with a 255-byte body and no closing segment. -/
def pageIncomplete : MPage := ⟨false, true, false, -1, [255], List.replicate 255 0⟩

/-! ## Supporting lemmas -/

/-- A little-endian byte read is bounded by `256 ^ count`. -/
theorem leVal_lt (bs : List Nat) : leVal bs < 256 ^ bs.length := by
  induction bs with
  | nil => simp [leVal]
  | cons b bs ih =>
    have hb : b % 256 < 256 := Nat.mod_lt _ (by omega)
    simp only [leVal, List.foldr_cons, List.length_cons] at *
    calc b % 256 + 256 * List.foldr (fun b acc => b % 256 + 256 * acc) 0 bs
        < 256 + 256 * List.foldr (fun b acc => b % 256 + 256 * acc) 0 bs := by omega
      _ ≤ 256 + 256 * (256 ^ bs.length - 1) := by
          have := ih
          omega
      _ ≤ 256 ^ (bs.length + 1) := by
          have : 1 ≤ 256 ^ bs.length := Nat.one_le_pow _ _ (by omega)
          rw [pow_succ]
          omega

/-- The granule-position accessor reads at most eight bytes, so its value is
below `2 ^ 64`. -/
theorem pageAbsgp_lt (h : List Nat) : pageAbsgp h < 2 ^ 64 := by
  have hlen : ((h.drop HEADER_GRANULE_POSITION).take 8).length ≤ 8 := by
    simp [List.length_take]
  have := leVal_lt ((h.drop HEADER_GRANULE_POSITION).take 8)
  have hpow : (256 : Nat) ^ ((h.drop HEADER_GRANULE_POSITION).take 8).length ≤ 256 ^ 8 :=
    Nat.pow_le_pow_right (by omega) hlen
  calc pageAbsgp h < 256 ^ ((h.drop HEADER_GRANULE_POSITION).take 8).length := this
    _ ≤ 256 ^ 8 := hpow
    _ = 2 ^ 64 := by norm_num

/-- `parsePage` only reports a bad checksum when a full fixed header is
buffered. -/
theorem parsePage_badCrc_length (t : List Nat) (h : parsePage t = .badCrc) :
    27 ≤ t.length := by
  unfold parsePage at h
  split_ifs at h
  omega

/-- A successfully parsed page reports exactly the fields of `pageHeaderRaw`
and `pageBodyRaw`, the length conditions hold, and the remaining buffer is
the tail past the page. -/
theorem parsePage_page_inv (t hd bd rest : List Nat)
    (h : parsePage t = .page hd bd rest) :
    hd = pageHeaderRaw t ∧ bd = pageBodyRaw t ∧ rest = t.drop (pageTotal t)
    ∧ pageTotal t ≤ t.length ∧ pageCrcOk t = true := by
  unfold parsePage at h
  split_ifs at h with h1 h2 h3 h4
  injection h with hh hb hr
  refine ⟨hh.symm, hb.symm, hr.symm, by omega, h4⟩

/-- A successfully parsed page consumes at least its 27 fixed header bytes,
so the remaining buffer is strictly shorter. -/
theorem parsePage_page_length (t hd bd rest : List Nat)
    (h : parsePage t = .page hd bd rest) : rest.length + 27 ≤ t.length := by
  obtain ⟨-, -, hrest, hlen, -⟩ := parsePage_page_inv t hd bd rest h
  subst hrest
  simp only [List.length_drop]
  unfold pageTotal at *
  omega

/-- A slice that lies inside the first operand of an append is unchanged by
the append. -/
theorem slice_append (pb more : List Nat) (a b : Nat) (hab : a + b ≤ pb.length) :
    ((pb ++ more).drop a).take b = (pb.drop a).take b := by
  rw [List.drop_append_eq_append_drop]
  rw [Nat.sub_eq_zero_of_le (by omega), List.drop_zero]
  rw [List.take_append_eq_append_take]
  rw [Nat.sub_eq_zero_of_le (by simp only [List.length_drop]; omega)]
  simp

/-- A prefix-contained take is unchanged by an append. -/
theorem take_append_left (pb more : List Nat) (n : Nat) (h : n ≤ pb.length) :
    (pb ++ more).take n = pb.take n := by
  have h0 := slice_append pb more 0 n (by omega)
  simpa using h0

/-- The declared segment count only reads byte 26, inside the fixed
header. -/
theorem pageNsegs_append (pb more : List Nat) (h : 27 ≤ pb.length) :
    pageNsegs (pb ++ more) = pageNsegs pb := by
  unfold pageNsegs
  rw [List.getD_append _ _ _ _ (by omega)]

/-- The lacing table lies inside a fully buffered page prefix. -/
theorem pageSegs_append (pb more : List Nat) (h : 27 + pageNsegs pb ≤ pb.length) :
    pageSegs (pb ++ more) = pageSegs pb := by
  unfold pageSegs
  rw [pageNsegs_append pb more (by omega)]
  rw [slice_append pb more 27 (pageNsegs pb) h]

/-- The body length of a fully buffered page prefix is unchanged by an
append. -/
theorem pageBodyLen_append (pb more : List Nat) (h : 27 + pageNsegs pb ≤ pb.length) :
    pageBodyLen (pb ++ more) = pageBodyLen pb := by
  unfold pageBodyLen
  rw [pageSegs_append pb more h]

/-- The total length of a fully buffered page prefix is unchanged by an
append. -/
theorem pageTotal_append (pb more : List Nat) (h : pageTotal pb ≤ pb.length) :
    pageTotal (pb ++ more) = pageTotal pb := by
  have hns : 27 + pageNsegs pb ≤ pb.length := by unfold pageTotal at h; omega
  unfold pageTotal
  rw [pageNsegs_append pb more (by omega), pageBodyLen_append pb more hns]

/-- The raw header of a fully buffered page prefix is unchanged by an
append. -/
theorem pageHeaderRaw_append (pb more : List Nat) (h : 27 + pageNsegs pb ≤ pb.length) :
    pageHeaderRaw (pb ++ more) = pageHeaderRaw pb := by
  unfold pageHeaderRaw
  rw [pageNsegs_append pb more (by omega)]
  exact take_append_left pb more _ h

/-- The body of a fully buffered page prefix is unchanged by an append. -/
theorem pageBodyRaw_append (pb more : List Nat) (h : pageTotal pb ≤ pb.length) :
    pageBodyRaw (pb ++ more) = pageBodyRaw pb := by
  have hns : 27 + pageNsegs pb ≤ pb.length := by unfold pageTotal at h; omega
  unfold pageBodyRaw
  rw [pageNsegs_append pb more (by omega), pageBodyLen_append pb more hns]
  exact slice_append pb more (27 + pageNsegs pb) (pageBodyLen pb)
    (by unfold pageTotal at h; omega)

/-- The checksum test of a fully buffered page prefix is unchanged by an
append. -/
theorem pageCrcOk_append (pb more : List Nat) (h : pageTotal pb ≤ pb.length) :
    pageCrcOk (pb ++ more) = pageCrcOk pb := by
  have h27 : 27 ≤ pb.length := by unfold pageTotal at h; omega
  unfold pageCrcOk
  rw [pageHeaderRaw_append pb more (by unfold pageTotal at h; omega),
    pageBodyRaw_append pb more h,
    slice_append pb more HEADER_CHECKSUM 4 (by unfold HEADER_CHECKSUM; omega)]

/-- Parsing is stable under appending further bytes: a page that parses
exactly from its own bytes parses identically at the head of a longer
buffer, with the appended bytes as the remainder. -/
theorem parsePage_append (pb more hd bd : List Nat)
    (h : parsePage pb = .page hd bd []) :
    parsePage (pb ++ more) = .page hd bd more := by
  obtain ⟨hhd, hbd, hrest, hlen, hcrc⟩ := parsePage_page_inv pb hd bd [] h
  have hdroplen : pb.length ≤ pageTotal pb := by
    have hlen0 := congrArg List.length hrest
    simp only [List.length_nil, List.length_drop] at hlen0
    omega
  have htot : pageTotal pb = pb.length := le_antisymm hlen hdroplen
  have h27 : 27 ≤ pb.length := by unfold pageTotal at htot; omega
  have hns : 27 + pageNsegs pb ≤ pb.length := by unfold pageTotal at htot; omega
  unfold parsePage
  rw [pageNsegs_append pb more h27, pageTotal_append pb more hlen,
    pageCrcOk_append pb more hlen, pageHeaderRaw_append pb more hns,
    pageBodyRaw_append pb more hlen]
  rw [if_neg (by simp only [List.length_append]; omega)]
  rw [if_neg (by simp only [List.length_append]; omega)]
  rw [if_neg (by simp only [List.length_append]; omega)]
  rw [if_pos hcrc]
  rw [← hhd, ← hbd]
  have hmore : (pb ++ more).drop (pageTotal pb) = more := by
    rw [htot]
    exact List.drop_left pb more
  rw [hmore]

/-- The capture test at an offset wholly inside the first operand of an
append is unchanged by the append. -/
theorem captureAt_append_left (xs more : List Nat) (j : Nat) (h : j + 4 ≤ xs.length) :
    captureAt (xs ++ more) j = captureAt xs j := by
  unfold captureAt
  rw [slice_append xs more j 4 h]

/-- The capture test shifts across a cons cell. -/
theorem captureAt_cons_succ (b : Nat) (bs : List Nat) (j : Nat) :
    captureAt (b :: bs) (j + 1) = captureAt bs j := by
  unfold captureAt
  rw [List.drop_succ_cons]

/-- A buffer shorter than a fixed header always reports need-more-data and
is preserved. -/
theorem pageScan_short (buf : List Nat) (u : Bool) (h : buf.length < 27) :
    pageScan buf u = (⟨buf, u⟩, .needData) := by
  cases buf with
  | nil => rfl
  | cons b bs => rw [pageScan, if_pos h]

/-- While out of sync, the scan silently passes over a garbage prefix in
which no capture pattern starts, provided a full header remains behind
it. -/
theorem pageScan_skip_garbage (g pb : List Nat) (h27 : 27 ≤ pb.length)
    (hnc : ∀ j, j < g.length → captureAt (g ++ pb) j = false) :
    pageScan (g ++ pb) true = pageScan pb true := by
  induction g with
  | nil => simp
  | cons a g ih =>
    have hcap0 : captureAt ((a :: g) ++ pb) 0 = false := hnc 0 (by simp)
    rw [List.cons_append] at hcap0 ⊢
    rw [pageScan]
    rw [if_neg (by simp only [List.length_cons, List.length_append]; omega)]
    rw [if_neg (by rw [hcap0]; simp)]
    rw [if_pos rfl]
    apply ih
    intro j hj
    have hs := hnc (j + 1) (by simp only [List.length_cons]; omega)
    rw [List.cons_append, captureAt_cons_succ] at hs
    exact hs

/-- Once the cursor reaches a complete checksum-valid page, the scan emits
it, consumes it, and resynchronizes, regardless of the previous sync
state. -/
theorem pageScan_emit (pb more hd bd : List Nat) (u : Bool)
    (hcap : captureAt pb 0 = true)
    (hparse : parsePage pb = .page hd bd []) :
    pageScan (pb ++ more) u = (⟨more, false⟩, .page hd bd) := by
  obtain ⟨-, -, -, hlen, -⟩ := parsePage_page_inv pb hd bd [] hparse
  have h27 : 27 ≤ pb.length := by unfold pageTotal at hlen; omega
  have hparse2 := parsePage_append pb more hd bd hparse
  have hcap2 : captureAt (pb ++ more) 0 = true := by
    rw [captureAt_append_left pb more 0 (by omega)]
    exact hcap
  cases hpb : pb with
  | nil => rw [hpb] at h27; simp at h27
  | cons b bs =>
    rw [hpb] at hparse2 hcap2
    rw [List.cons_append] at hparse2 hcap2 ⊢
    rw [pageScan]
    rw [if_neg (by
      have := congrArg List.length hpb
      simp only [List.length_cons] at this
      simp only [List.length_cons, List.length_append]
      omega)]
    rw [if_pos hcap2]
    rw [hparse2]

set_option maxRecDepth 4096 in
/-- The CRC of the concrete page `pageC4` with its checksum field zeroed,
computed in four chunks so each step stays within kernel reduction
limits. -/
theorem pageC4_crc :
    oggCrc ([79, 103, 103, 83, 0, 6, 0] ++ ([0, 0, 0, 0, 0, 0, 0]
      ++ ([0, 0, 0, 0, 0, 0, 0] ++ [0, 0, 0, 0, 0, 1, 0]))) = 2139602856 := by
  have e1 : List.foldl crcUpdate 0 [79, 103, 103, 83, 0, 6, 0] = 2871109143 := by decide
  have e2 : List.foldl crcUpdate 2871109143 [0, 0, 0, 0, 0, 0, 0] = 1675084668 := by decide
  have e3 : List.foldl crcUpdate 1675084668 [0, 0, 0, 0, 0, 0, 0] = 2520445110 := by decide
  have e4 : List.foldl crcUpdate 2520445110 [0, 0, 0, 0, 0, 1, 0] = 2139602856 := by decide
  unfold oggCrc
  rw [List.foldl_append, e1, List.foldl_append, e2, List.foldl_append, e3, e4]

/-- The checksum test passes on the concrete page `pageC4`. -/
theorem pageC4_crcOk : pageCrcOk pageC4 = true := by
  have hz : (pageHeaderRaw pageC4).take HEADER_CHECKSUM ++ [0, 0, 0, 0]
      ++ (pageHeaderRaw pageC4).drop 26 ++ pageBodyRaw pageC4
      = [79, 103, 103, 83, 0, 6, 0] ++ ([0, 0, 0, 0, 0, 0, 0]
        ++ ([0, 0, 0, 0, 0, 0, 0] ++ [0, 0, 0, 0, 0, 1, 0])) := by decide
  have hs : leVal ((pageC4.drop HEADER_CHECKSUM).take 4) = 2139602856 := by decide
  unfold pageCrcOk
  rw [hz, hs, pageC4_crc]
  decide

/-- The concrete page `pageC4` parses as one complete page with itself as
header, an empty body, and nothing left over. -/
theorem pageC4_parse : parsePage pageC4 = .page pageC4 [] [] := by
  unfold parsePage
  rw [if_neg (by decide), if_neg (by decide), if_neg (by decide), if_pos pageC4_crcOk]
  have h1 : pageHeaderRaw pageC4 = pageC4 := by decide
  have h2 : pageBodyRaw pageC4 = [] := by decide
  have h3 : pageC4.drop (pageTotal pageC4) = [] := by decide
  rw [h1, h2, h3]

/-- The chunks of a packet concatenate back to the accumulated bytes
followed by the remaining input. -/
theorem chunksAux_flatten (d : List Nat) :
    ∀ acc, (chunksAux d acc).flatten = acc ++ d := by
  induction d with
  | nil => intro acc; simp [chunksAux]
  | cons b rest ih =>
    intro acc
    rw [chunksAux]
    split
    · simp [ih]
    · simp [ih]

/-- Segmentation always emits at least one chunk. -/
theorem chunksAux_ne (d : List Nat) : ∀ acc, chunksAux d acc ≠ [] := by
  induction d with
  | nil => intro acc; simp [chunksAux]
  | cons b rest ih =>
    intro acc
    rw [chunksAux]
    split
    · simp
    · exact ih _

/-- Every chunk before the last is a full 255 bytes and the final chunk is
shorter, provided the accumulator has room left. -/
theorem chunksAux_shape (d : List Nat) :
    ∀ acc, acc.length ≤ 254 →
      (∀ c ∈ (chunksAux d acc).dropLast, c.length = 255)
      ∧ (∀ c, (chunksAux d acc).getLast? = some c → c.length < 255) := by
  induction d with
  | nil =>
    intro acc hacc
    constructor
    · intro c hc
      simp [chunksAux] at hc
    · intro c hc
      simp [chunksAux] at hc
      subst hc
      omega
  | cons b rest ih =>
    intro acc hacc
    rw [chunksAux]
    split
    · rename_i h254
      have ihr := ih [] (by simp)
      rcases hrest : chunksAux rest [] with - | ⟨c2, cs⟩
      · exact absurd hrest (chunksAux_ne rest [])
      · rw [hrest] at ihr
        constructor
        · intro c hc
          rw [List.dropLast_cons₂] at hc
          rcases List.mem_cons.mp hc with hc | hc
          · subst hc
            simp only [List.length_append, List.length_cons, List.length_nil]
            omega
          · exact ihr.1 c hc
        · intro c hc
          rw [List.getLast?_cons_cons] at hc
          exact ihr.2 c hc
    · rename_i h254
      exact ih (acc ++ [b]) (by simp; omega)

/-- The body of one packet is recovered by flattening its chunks. -/
theorem chunks255_flatten (d : List Nat) : (chunks255 d).flatten = d :=
  chunksAux_flatten d []

/-- A packet always has at least one chunk. -/
theorem chunks255_ne (d : List Nat) : chunks255 d ≠ [] := chunksAux_ne d []

/-- All chunks before the last are full and the last is shorter. -/
theorem chunks255_shape (d : List Nat) :
    (∀ c ∈ (chunks255 d).dropLast, c.length = 255)
    ∧ (∀ c, (chunks255 d).getLast? = some c → c.length < 255) :=
  chunksAux_shape d [] (by simp)

/-- Page grouping loses no segments. -/
theorem groups255Aux_flatten (l : List Seg) :
    ∀ acc, (groups255Aux l acc).flatten = acc ++ l := by
  induction l with
  | nil =>
    intro acc
    rw [groups255Aux]
    split
    · rename_i he
      simp only [List.isEmpty_iff] at he
      simp [he]
    · simp
  | cons s rest ih =>
    intro acc
    rw [groups255Aux]
    split
    · simp [ih]
    · simp [ih]

/-- Page grouping emits no empty page. -/
theorem groups255Aux_mem_ne (l : List Seg) :
    ∀ acc g, g ∈ groups255Aux l acc → g ≠ [] := by
  induction l with
  | nil =>
    intro acc g hg
    rw [groups255Aux] at hg
    split at hg
    · simp at hg
    · rename_i he
      simp only [List.mem_singleton] at hg
      subst hg
      simpa using he
  | cons s rest ih =>
    intro acc g hg
    rw [groups255Aux] at hg
    split at hg
    · rcases List.mem_cons.mp hg with hg | hg
      · subst hg; simp
      · exact ih [] g hg

    · exact ih _ g hg

/-- Page grouping emits nothing exactly for an empty queue with an empty
accumulator. -/
theorem groups255Aux_eq_nil (l : List Seg) :
    ∀ acc, groups255Aux l acc = [] ↔ (l = [] ∧ acc = []) := by
  induction l with
  | nil =>
    intro acc
    rw [groups255Aux]
    split
    · rename_i he
      simp only [List.isEmpty_iff] at he
      simp [he]
    · rename_i he
      simp only [List.isEmpty_iff] at he
      simp [he]
  | cons s rest ih =>
    intro acc
    rw [groups255Aux]
    split
    · simp
    · rw [ih]
      simp

/-- The last segment of the last page group is the last queued segment. -/
theorem groups255Aux_last (l : List Seg) :
    ∀ acc, ((groups255Aux l acc).getLast?.bind List.getLast?) = (acc ++ l).getLast? := by
  induction l with
  | nil =>
    intro acc
    rw [groups255Aux]
    split
    · rename_i he
      simp only [List.isEmpty_iff] at he
      simp [he]
    · simp
  | cons s rest ih =>
    intro acc
    rw [groups255Aux]
    split
    · rcases hrest : rest with - | ⟨s2, rest2⟩
      · rw [show groups255Aux [] [] = [] from rfl]
        simp
      · rw [← hrest]
        have hne : groups255Aux rest [] ≠ [] := by
          rw [ne_eq, groups255Aux_eq_nil]
          simp [hrest]
        rcases hG : groups255Aux rest [] with - | ⟨G0, Gs⟩
        · exact absurd hG hne
        · rw [List.getLast?_cons_cons]
          have hih := ih []
          rw [hG] at hih
          simp only [List.nil_append] at hih
          rw [hih]
          rw [List.getLast?_append_of_ne_nil _ (show s :: rest ≠ [] by simp)]
          rw [hrest, List.getLast?_cons_cons]
    · have := ih (acc ++ [s])
      rw [this, List.append_assoc]
      rfl

/-- Splitting a flattened chunk list along the chunk lengths restores the
chunks. -/
theorem splitSegs_flatten (cs : List (List Nat)) :
    splitSegs (cs.map List.length) cs.flatten = cs := by
  induction cs with
  | nil => rfl
  | cons c cs ih =>
    rw [List.map_cons, List.flatten_cons, splitSegs]
    rw [List.take_left, List.drop_left, ih]

/-- The entries a constructed page contributes are its own segments, each
retagged with the page's granule position and end flag. -/
theorem pageEntries_mk (g : List Seg) (c1 c2 c3 : Bool) (gp : Int) :
    pageEntries ⟨c1, c2, c3, gp, g.map (fun s => s.chunk.length),
        (g.map (fun s => s.chunk)).flatten⟩
      = g.map (fun s => ⟨s.chunk, gp, c3⟩) := by
  unfold pageEntries
  have hlen : g.map (fun s => s.chunk.length)
      = (g.map (fun s => s.chunk)).map List.length := by
    rw [List.map_map]
    rfl
  rw [hlen]
  show (splitSegs ((g.map (fun s => s.chunk)).map List.length)
    (g.map (fun s => s.chunk)).flatten).map _ = _
  rw [splitSegs_flatten, List.map_map]
  rfl

/-- The chunk sequence of all entries the emitted pages contribute is the
chunk sequence of the grouped segments. -/
theorem mkPages_entries_chunk (gs : List (List Seg)) :
    ∀ f c b e, (((mkPages gs f c b e).map pageEntries).flatten).map (fun en => en.chunk)
      = (gs.flatten).map (fun s => s.chunk) := by
  induction gs with
  | nil =>
    intro f c b e
    rfl
  | cons g rest ih =>
    intro f c b e
    rw [mkPages, List.map_cons, List.flatten_cons, List.map_append, pageEntries_mk, ih]
    rw [List.flatten_cons, List.map_append, List.map_map]
    rfl

/-- Assembling one packet's chunk run (arbitrarily tagged) followed by
anything: the run closes exactly one packet whose data appends the run's
chunks to the accumulator, whose tags come from the run's closing entry,
and assembly continues on the remainder. -/
theorem asm_run (cs : List (List Nat)) :
    ∀ (E1 E2 : List Entry) (acc : List Nat) (f b : Bool),
      cs ≠ [] →
      (∀ c ∈ cs.dropLast, c.length = 255) →
      (∀ c, cs.getLast? = some c → c.length < 255) →
      E1.map (fun en => en.chunk) = cs →
      ∃ cl : Entry, E1.getLast? = some cl ∧
        asmPackets (E1 ++ E2) acc f b
          = ⟨acc ++ cs.flatten, f && b, E2.isEmpty && cl.eosTag, cl.granulepos⟩
            :: asmPackets E2 [] false b := by
  induction cs with
  | nil =>
    intro E1 E2 acc f b hne
    exact absurd rfl hne
  | cons c cs ih =>
    intro E1 E2 acc f b hne hfull hlast hchunks
    rcases E1 with - | ⟨e, E1t⟩
    · simp at hchunks
    · rw [List.map_cons] at hchunks
      injection hchunks with hec htc
      rcases cs with - | ⟨c2, cs2⟩
      · have hE1t : E1t = [] := List.map_eq_nil.mp htc
        subst hE1t
        have hcl : c.length < 255 := hlast c rfl
        refine ⟨e, rfl, ?_⟩
        rw [List.cons_append, List.nil_append, asmPackets]
        rw [if_neg (by rw [hec]; omega)]
        rw [hec]
        simp
      · have hc255 : c.length = 255 := by
          apply hfull c
          rw [List.dropLast_cons₂]
          simp
        have hfull2 : ∀ cx ∈ (c2 :: cs2).dropLast, cx.length = 255 := by
          intro cx hcx
          apply hfull cx
          rw [List.dropLast_cons₂]
          simp only [List.mem_cons]
          right
          exact hcx
        have hlast2 : ∀ cx, (c2 :: cs2).getLast? = some cx → cx.length < 255 := by
          intro cx hcx
          apply hlast cx
          rw [List.getLast?_cons_cons]
          exact hcx
        obtain ⟨cl, hcl_last, hres⟩ := ih E1t E2 (acc ++ e.chunk) f b (by simp) hfull2 hlast2 htc
        have hE1t_ne : E1t ≠ [] := by
          intro h
          rw [h] at htc
          simp at htc
        refine ⟨cl, ?_, ?_⟩
        · rcases E1t with - | ⟨e2, E1t2⟩
          · exact absurd rfl hE1t_ne
          · rw [List.getLast?_cons_cons]
            exact hcl_last
        · rw [List.cons_append, asmPackets, if_pos (by rw [hec]; exact hc255)]
          rw [hres]
          congr 2
          rw [hec]
          simp [List.append_assoc]

/-- Assembling a chunk-faithful entry sequence recovers the packet payloads
in order; when there is at least one packet, the first decoded packet alone
carries the begin flag `f && b`, only the last carries an end flag — the
final entry's tag — and the last decoded granule position is the final
entry's tag. -/
theorem asm_spec (ps : List MPacket) :
    ∀ (E : List Entry) (f b : Bool),
      E.map (fun en => en.chunk) = (ps.map (fun p => chunks255 p.data)).flatten →
      (asmPackets E [] f b).map (fun q => q.data) = ps.map (fun p => p.data)
      ∧ (ps ≠ [] → ∃ cl : Entry, E.getLast? = some cl
          ∧ (asmPackets E [] f b).map (fun q => q.bos)
              = (f && b) :: List.replicate (ps.length - 1) false
          ∧ (asmPackets E [] f b).map (fun q => q.eos)
              = List.replicate (ps.length - 1) false ++ [cl.eosTag]
          ∧ ((asmPackets E [] f b).getLast?).map (fun q => q.granulepos)
              = some cl.granulepos) := by
  induction ps with
  | nil =>
    intro E f b hchunks
    simp only [List.map_nil, List.flatten_nil, List.map_eq_nil_iff] at hchunks
    subst hchunks
    exact ⟨rfl, fun hne => absurd rfl hne⟩
  | cons p ps ih =>
    intro E f b hchunks
    rw [List.map_cons, List.flatten_cons] at hchunks
    have h1 : (E.take (chunks255 p.data).length).map (fun en => en.chunk)
        = chunks255 p.data := by
      rw [List.map_take, hchunks]
      exact List.take_left _ _
    have h2 : (E.drop (chunks255 p.data).length).map (fun en => en.chunk)
        = (ps.map (fun p => chunks255 p.data)).flatten := by
      rw [List.map_drop, hchunks]
      exact List.drop_left _ _
    obtain ⟨cl1, hcl1, hrun⟩ := asm_run (chunks255 p.data)
      (E.take (chunks255 p.data).length) (E.drop (chunks255 p.data).length) [] f b
      (chunks255_ne _) (chunks255_shape _).1 (chunks255_shape _).2 h1
    rw [List.take_append_drop] at hrun
    rw [List.nil_append, chunks255_flatten] at hrun
    obtain ⟨ihdata, ihrest⟩ := ih (E.drop (chunks255 p.data).length) false b h2
    by_cases hps : ps = []
    · subst hps
      have hE2 : E.drop (chunks255 p.data).length = [] := by
        have h2a := h2
        simp only [List.map_nil, List.flatten_nil, List.map_eq_nil_iff] at h2a
        exact h2a
      rw [hE2] at hrun
      have hElast : E.getLast? = some cl1 := by
        conv => rw [← List.take_append_drop (chunks255 p.data).length E]
        rw [hE2, List.append_nil]
        exact hcl1
      refine ⟨?_, fun hne => ⟨cl1, hElast, ?_, ?_, ?_⟩⟩
      · rw [hrun]
        rfl
      · rw [hrun]
        rfl
      · rw [hrun]
        simp [asmPackets]
      · rw [hrun]
        rfl
    · have hpsne : ps ≠ [] := hps
      obtain ⟨cl, hclE2, hbos2, heos2, hgp2⟩ := ihrest hpsne
      have hE2ne : E.drop (chunks255 p.data).length ≠ [] := by
        intro h
        rw [h] at hclE2
        simp at hclE2
      have hElast : E.getLast? = some cl := by
        conv => rw [← List.take_append_drop (chunks255 p.data).length E]
        rw [List.getLast?_append_of_ne_nil _ hE2ne]
        exact hclE2
      have hasm2ne : asmPackets (E.drop (chunks255 p.data).length) [] false b ≠ [] := by
        intro h
        rw [h] at hbos2
        simp at hbos2
      have hlen1 : ps.length = (ps.length - 1) + 1 := by
        have := List.length_pos.mpr hpsne
        omega
      refine ⟨?_, fun hne => ⟨cl, hElast, ?_, ?_, ?_⟩⟩
      · rw [hrun, List.map_cons, ihdata, List.map_cons]
      · rw [hrun, List.map_cons, hbos2]
        simp only [Bool.false_and]
        rw [show (false :: List.replicate (ps.length - 1) false)
            = List.replicate ps.length false from by rw [hlen1]; rfl]
        simp [List.length_cons]
      · rw [hrun, List.map_cons, heos2]
        have hie : (E.drop (chunks255 p.data).length).isEmpty = false := by
          rcases hE : E.drop (chunks255 p.data).length with - | ⟨x, xs⟩
          · exact absurd hE hE2ne
          · rfl
        rw [hie]
        simp only [Bool.false_and]
        rw [show (false :: (List.replicate (ps.length - 1) false ++ [cl.eosTag]))
            = List.replicate ps.length false ++ [cl.eosTag] from by rw [hlen1]; rfl]
        simp [List.length_cons]
      · rw [hrun]
        rcases hA : asmPackets (E.drop (chunks255 p.data).length) [] false b with - | ⟨y, ys⟩
        · exact absurd hA hasm2ne
        · rw [List.getLast?_cons_cons]
          rw [hA] at hgp2
          exact hgp2

/-- The chunk sequence of all encoded pages' entries is the chunk sequence
of the packet queue. -/
theorem encode_entries_chunk (ps : List MPacket) :
    (((encodePages ps).map pageEntries).flatten).map (fun en => en.chunk)
      = (ps.map (fun p => chunks255 p.data)).flatten := by
  unfold encodePages
  rw [mkPages_entries_chunk]
  unfold groups255
  rw [groups255Aux_flatten, List.nil_append]
  unfold segsOf
  rw [List.map_flatten]
  congr 1
  rw [List.map_map]
  apply List.map_congr_left
  intro p hp
  simp [List.map_map, Function.comp_def]

/-- A nonempty packet queue contributes at least one segment. -/
theorem segsOf_ne (ps : List MPacket) (hne : ps ≠ []) : segsOf ps ≠ [] := by
  rcases ps with - | ⟨p, t⟩
  · exact absurd rfl hne
  · unfold segsOf
    rw [List.map_cons, List.flatten_cons]
    intro h
    rcases List.append_eq_nil.mp h with ⟨h1, -⟩
    exact chunks255_ne p.data (List.map_eq_nil.mp h1)

/-- The last queued segment is the last packet's closing chunk: it carries
that packet's granule position and is shorter than 255 bytes. -/
theorem segsOf_last (ps : List MPacket) :
    ps ≠ [] →
    ∃ (p : MPacket) (s : Seg), ps.getLast? = some p ∧ (segsOf ps).getLast? = some s
      ∧ s.granulepos = p.granulepos ∧ s.chunk.length < 255 := by
  induction ps with
  | nil => intro hne; exact absurd rfl hne
  | cons p t ih =>
    intro hne
    rcases ht : t with - | ⟨q, t2⟩
    · obtain ⟨c, hc⟩ : ∃ c, (chunks255 p.data).getLast? = some c :=
        Option.isSome_iff_exists.mp (List.getLast?_isSome.mpr (chunks255_ne p.data))
      refine ⟨p, ⟨c, p.granulepos⟩, rfl, ?_, rfl, (chunks255_shape p.data).2 c hc⟩
      unfold segsOf
      rw [List.map_cons, List.map_nil, List.flatten_cons, List.flatten_nil, List.append_nil]
      rw [List.getLast?_map, hc]
      rfl
    · rw [← ht]
      have htne : t ≠ [] := by rw [ht]; simp
      obtain ⟨p2, s, hp2, hs, hgp, hlen⟩ := ih htne
      refine ⟨p2, s, ?_, ?_, hgp, hlen⟩
      · rw [ht, List.getLast?_cons_cons, ← ht]
        exact hp2
      · unfold segsOf at hs ⊢
        rw [List.map_cons, List.flatten_cons]
        rw [List.getLast?_append_of_ne_nil _ ?hne2]
        · exact hs
        case hne2 =>
          have := segsOf_ne t htne
          unfold segsOf at this
          exact this

/-- Emitted pages are as many as the groups, and in particular nonempty for
a nonempty grouping. -/
theorem mkPages_ne (gs : List (List Seg)) (f c b e : Bool) (hne : gs ≠ []) :
    mkPages gs f c b e ≠ [] := by
  rcases gs with - | ⟨g, rest⟩
  · exact absurd rfl hne
  · rw [mkPages]
    simp

/-- The last emitted page is built from the last group: it carries the end
flag, the last group's granule position, its lacing table and its body. -/
theorem mkPages_last (gs : List (List Seg)) :
    ∀ f c b e, gs ≠ [] →
      ∃ (g : List Seg) (cflag fflag : Bool), gs.getLast? = some g ∧
        (mkPages gs f c b e).getLast?
          = some ⟨cflag, fflag, e, pageGranule g, g.map (fun s => s.chunk.length),
              (g.map (fun s => s.chunk)).flatten⟩ := by
  induction gs with
  | nil =>
    intro f c b e hne
    exact absurd rfl hne
  | cons g rest ih =>
    intro f c b e hne
    rcases hrest : rest with - | ⟨g2, rest2⟩
    · refine ⟨g, c, f && b, rfl, ?_⟩
      rw [mkPages, mkPages]
      simp
    · rw [← hrest]
      have hrne : rest ≠ [] := by rw [hrest]; simp
      obtain ⟨g', cflag, fflag, hg', hlast⟩ := ih false (groupContinues g) b e hrne
      refine ⟨g', cflag, fflag, ?_, ?_⟩
      · rw [hrest, List.getLast?_cons_cons, ← hrest]
        exact hg'
      · rw [mkPages]
        rcases hmk : mkPages rest false (groupContinues g) b e with - | ⟨pg2, pgs⟩
        · exact absurd hmk (mkPages_ne rest false (groupContinues g) b e hrne)
        · rw [List.getLast?_cons_cons, ← hmk]
          exact hlast

/-- The last element of a flattened list of lists is the last element of
its last nonempty block. -/
theorem flatten_getLast (L : List (List Entry)) :
    ∀ l, L.getLast? = some l → l ≠ [] → L.flatten.getLast? = l.getLast? := by
  induction L with
  | nil =>
    intro l hl
    simp at hl
  | cons x L ih =>
    intro l hl hlne
    rcases hL : L with - | ⟨y, L2⟩
    · rw [hL] at hl
      simp only [List.getLast?_singleton, Option.some.injEq] at hl
      subst hl
      simp
    · rw [← hL]
      have hLne : L ≠ [] := by rw [hL]; simp
      rw [hL, List.getLast?_cons_cons, ← hL] at hl
      have hres := ih l hl hlne
      rw [List.flatten_cons]
      rw [List.getLast?_append_of_ne_nil _ ?hfne]
      · exact hres
      case hfne =>
        intro h
        rw [h] at hres
        obtain ⟨z, hz⟩ : ∃ z, l.getLast? = some z :=
          Option.isSome_iff_exists.mp (List.getLast?_isSome.mpr hlne)
        rw [hz] at hres
        simp at hres

/-- A list whose last element satisfies the filter predicate keeps it as the
last element of the filtered list. -/
theorem filter_getLast_of_pred (g : List Seg) :
    ∀ s : Seg, g.getLast? = some s → s.chunk.length < 255 →
      (g.filter (fun x => decide (x.chunk.length < 255))).getLast? = some s := by
  induction g with
  | nil =>
    intro s hs
    simp at hs
  | cons x g ih =>
    intro s hs hlt
    rcases hg : g with - | ⟨y, g2⟩
    · rw [hg] at hs
      simp only [List.getLast?_singleton, Option.some.injEq] at hs
      subst hs
      rw [List.filter_singleton]
      rw [show decide (x.chunk.length < 255) = true from by simpa using hlt]
      rfl
    · rw [← hg]
      have hgne : g ≠ [] := by rw [hg]; simp
      rw [hg, List.getLast?_cons_cons, ← hg] at hs
      have hres := ih s hs hlt
      have hfne : g.filter (fun x => decide (x.chunk.length < 255)) ≠ [] := by
        intro h
        rw [h] at hres
        simp at hres
      rw [List.filter_cons]
      split
      · rcases hf : g.filter (fun x => decide (x.chunk.length < 255)) with - | ⟨z, zs⟩
        · exact absurd hf hfne
        · rw [hf, List.getLast?_cons_cons, ← hf]
          exact hres
      · exact hres

/-- The last entry the encoded pages contribute carries the last packet's
granule position and end-of-stream flag. -/
theorem encode_entries_last (ps : List MPacket) (hne : ps ≠ []) :
    ∃ (p : MPacket) (cl : Entry),
      ps.getLast? = some p
      ∧ (((encodePages ps).map pageEntries).flatten).getLast? = some cl
      ∧ cl.eosTag = ((ps.getLast?).elim false (fun q => q.eos))
      ∧ cl.granulepos = p.granulepos := by
  obtain ⟨p, s, hp, hs, hgp, hlen⟩ := segsOf_last ps hne
  have hSne : segsOf ps ≠ [] := segsOf_ne ps hne
  have hgsne : groups255 (segsOf ps) ≠ [] := by
    unfold groups255
    rw [ne_eq, groups255Aux_eq_nil]
    simp [hSne]
  obtain ⟨g, cflag, fflag, hg, hpglast⟩ := mkPages_last (groups255 (segsOf ps)) true false
    (ps.head?.elim false (fun q => q.bos)) ((ps.getLast?).elim false (fun q => q.eos)) hgsne
  have hglast : g.getLast? = some s := by
    have hbind := groups255Aux_last (segsOf ps) []
    rw [List.nil_append] at hbind
    unfold groups255 at hg
    rw [hg] at hbind
    simp only [Option.some_bind] at hbind
    rw [hbind, hs]
  have hgne : g ≠ [] := by
    intro h
    rw [h] at hglast
    simp at hglast
  have hpage : pageGranule g = s.granulepos := by
    unfold pageGranule
    rw [filter_getLast_of_pred g s hglast hlen]
  refine ⟨p, ⟨s.chunk, pageGranule g, (ps.getLast?).elim false (fun q => q.eos)⟩,
    hp, ?_, rfl, by rw [hpage, hgp]⟩
  have hLlast : ((encodePages ps).map pageEntries).getLast?
      = some (g.map (fun x => ⟨x.chunk, pageGranule g,
          (ps.getLast?).elim false (fun q => q.eos)⟩)) := by
    rw [List.getLast?_map]
    unfold encodePages
    rw [hpglast]
    simp only [Option.map_some']
    rw [pageEntries_mk]
  rw [flatten_getLast _ _ hLlast (by simpa using hgne)]
  rw [List.getLast?_map, hglast]
  rfl

/-- The first encoded page begins the logical stream exactly when the first
queued packet does. -/
theorem encode_head_bos (ps : List MPacket) (hne : ps ≠ []) :
    (encodePages ps).head?.elim false (fun pg => pg.bos)
      = ps.head?.elim false (fun p => p.bos) := by
  unfold encodePages
  have hgsne : groups255 (segsOf ps) ≠ [] := by
    unfold groups255
    rw [ne_eq, groups255Aux_eq_nil]
    simp [segsOf_ne ps hne]
  rcases hgs : groups255 (segsOf ps) with - | ⟨g, rest⟩
  · exact absurd hgs hgsne
  · rw [mkPages]
    simp

/-- Mapping a pointwise-false projection yields a replicate of falses. -/
theorem map_false_of_all (t : List MPacket) (f : MPacket → Bool)
    (h : ∀ p ∈ t, f p = false) : t.map f = List.replicate t.length false := by
  induction t with
  | nil => rfl
  | cons x t ih =>
    rw [List.map_cons, h x (by simp), List.length_cons, List.replicate_succ]
    rw [ih (fun p hp => h p (by simp [hp]))]

/-- For a well-flagged stream the begin flags are the head's flag followed
by falses. -/
theorem map_bos_of_wf (ps : List MPacket) (hne : ps ≠ [])
    (hbos : ∀ p ∈ ps.tail, p.bos = false) :
    ps.map (fun p => p.bos)
      = (ps.head?.elim false (fun p => p.bos)) :: List.replicate (ps.length - 1) false := by
  rcases ps with - | ⟨p, t⟩
  · exact absurd rfl hne
  · rw [List.map_cons]
    rw [map_false_of_all t (fun p => p.bos) (fun q hq => hbos q hq)]
    rfl

/-- For a well-flagged stream the end flags are falses followed by the last
packet's flag. -/
theorem map_eos_of_wf (ps : List MPacket) :
    ps ≠ [] → (∀ p ∈ ps.dropLast, p.eos = false) →
    ∃ p, ps.getLast? = some p
      ∧ ps.map (fun q => q.eos) = List.replicate (ps.length - 1) false ++ [p.eos] := by
  induction ps with
  | nil =>
    intro h
    exact absurd rfl h
  | cons p t ih =>
    intro hne heos
    rcases ht : t with - | ⟨q, t2⟩
    · exact ⟨p, rfl, by simp⟩
    · rw [← ht]
      have htne : t ≠ [] := by rw [ht]; simp
      have hpe : p.eos = false := by
        apply heos p
        rw [ht, List.dropLast_cons₂]
        simp
      have hsub : ∀ x ∈ t.dropLast, x.eos = false := by
        intro x hx
        apply heos x
        rw [ht, List.dropLast_cons₂]
        simp only [List.mem_cons]
        right
        rw [← ht]
        exact hx
      obtain ⟨pl, hpl, hmap⟩ := ih htne hsub
      have hlt : t.length = (t.length - 1) + 1 := by
        have := List.length_pos.mpr htne
        omega
      refine ⟨pl, ?_, ?_⟩
      · rw [ht, List.getLast?_cons_cons, ← ht]
        exact hpl
      · rw [List.map_cons, hpe, hmap]
        rw [show (false :: (List.replicate (t.length - 1) false ++ [pl.eos]))
            = List.replicate t.length false ++ [pl.eos] from by rw [hlt]; rfl]
        simp [List.length_cons]

/-- C1 counterexample: two one-byte packets with granule positions 1 and 2
share a single encoded page; decoding returns the first packet with the
page's granule position 2, so the round trip is not verbatim as the claim
states. -/
theorem C1_roundtrip_counterexample :
    decodePackets (encodePages psC1) ≠ psC1
    ∧ decodePackets (encodePages psC1)
        = [⟨[10], true, false, 2⟩, ⟨[20], false, true, 2⟩] := by
  constructor
  · decide
  · decide

/-- C1 amended: for a well-flagged packet sequence (begin flag only on the
first packet, end flag only on the last), encoding through the assembler
into pages and decoding through a fresh assembler returns packets with the
same payload bytes, the same begin and end flags, and the same final
granule position; intermediate granule positions are those of the pages
the packets complete on, not in general the originals. -/
theorem C1_roundtrip_amended (ps : List MPacket)
    (hbos : ∀ p ∈ ps.tail, p.bos = false)
    (heos : ∀ p ∈ ps.dropLast, p.eos = false) :
    (decodePackets (encodePages ps)).map (fun q => q.data) = ps.map (fun p => p.data)
    ∧ (decodePackets (encodePages ps)).map (fun q => q.bos) = ps.map (fun p => p.bos)
    ∧ (decodePackets (encodePages ps)).map (fun q => q.eos) = ps.map (fun p => p.eos)
    ∧ ((decodePackets (encodePages ps)).getLast?).map (fun q => q.granulepos)
        = (ps.getLast?).map (fun p => p.granulepos) := by
  by_cases hne : ps = []
  · subst hne
    exact ⟨rfl, rfl, rfl, rfl⟩
  · unfold decodePackets
    obtain ⟨hdata, hrest⟩ := asm_spec ps (((encodePages ps).map pageEntries).flatten) true
      ((encodePages ps).head?.elim false (fun pg => pg.bos)) (encode_entries_chunk ps)
    obtain ⟨cl, hclE, hbosm, heosm, hgpm⟩ := hrest hne
    obtain ⟨p, cl2, hp, hcl2, hcl2e, hcl2g⟩ := encode_entries_last ps hne
    have hcl_eq : cl = cl2 := by
      rw [hclE] at hcl2
      exact Option.some.inj hcl2
    refine ⟨hdata, ?_, ?_, ?_⟩
    · rw [hbosm, map_bos_of_wf ps hne hbos]
      rw [encode_head_bos ps hne]
      simp
    · obtain ⟨pl, hpl, hmap⟩ := map_eos_of_wf ps hne heos
      rw [heosm, hmap]
      have hple : cl.eosTag = pl.eos := by
        rw [hcl_eq, hcl2e, hpl]
        rfl
      rw [hple]
    · rw [hgpm, hp]
      rw [hcl_eq, hcl2g]
      rfl

/-- C1 witness: the amended theorem applied to the two concrete well-flagged
packets of `psC1`. -/
theorem C1_roundtrip_amended_witness :
    (decodePackets (encodePages psC1)).map (fun q => q.data) = psC1.map (fun p => p.data)
    ∧ (decodePackets (encodePages psC1)).map (fun q => q.bos) = psC1.map (fun p => p.bos)
    ∧ (decodePackets (encodePages psC1)).map (fun q => q.eos) = psC1.map (fun p => p.eos)
    ∧ ((decodePackets (encodePages psC1)).getLast?).map (fun q => q.granulepos)
        = (psC1.getLast?).map (fun p => p.granulepos) :=
  C1_roundtrip_amended psC1 (by simp [psC1]) (by simp [psC1])

/-- C4 counterexample: `pageC4` is a valid page (it parses completely with a
passing checksum, and `validate_header` accepts its header), yet submitting
one garbage byte followed by all of its bytes to a fresh `SyncState`
returns `Ok(None)`: the single out-of-sync `ogg_sync_pageout` result makes
`submit_bytes` return before any page is extracted, so the submission does
not yield a skipped-bytes signal followed by the page, as the claim
states. -/
theorem C4_sync_recovery_counterexample :
    parsePage pageC4 = .page pageC4 [] []
    ∧ validateHeader pageC4 = .ok ()
    ∧ submitBytes mSyncNew ([0] ++ pageC4) = some (⟨pageC4, true⟩, .ok none)
    ∧ isSynced ⟨pageC4, true⟩ = false :=
  ⟨pageC4_parse, by decide, by decide, by decide⟩

/-- C4 amended: with nonempty garbage in which no capture pattern starts
prepended to a complete valid page, the first `submit_bytes` call consumes
one garbage byte, signals out-of-sync internally (the one `skipped` result,
which `submit_bytes` maps to `Ok(None)` — the page is not yet extracted),
leaving `is_synced()` false; a following nonempty submission (of fewer
bytes than a header) silently passes the remaining garbage, extracts
exactly page `p`, and leaves `is_synced()` true. -/
theorem C4_sync_recovery_amended (g pb more hd bd : List Nat)
    (hg : g ≠ [])
    (hnc : ∀ j, j < g.length → captureAt (g ++ pb) j = false)
    (hcap : captureAt pb 0 = true)
    (hparse : parsePage pb = .page hd bd [])
    (hvh : validateHeader hd = .ok ())
    (hmore : more ≠ [])
    (hmlt : more.length < 27) :
    pageOutStep ⟨g ++ pb, false⟩ = (⟨g.drop 1 ++ pb, true⟩, .skipped)
    ∧ submitBytes mSyncNew (g ++ pb) = some (⟨g.drop 1 ++ pb, true⟩, .ok none)
    ∧ isSynced ⟨g.drop 1 ++ pb, true⟩ = false
    ∧ pageOutStep ⟨(g.drop 1 ++ pb) ++ more, true⟩ = (⟨more, false⟩, .page hd bd)
    ∧ submitBytes ⟨g.drop 1 ++ pb, true⟩ more = some (⟨more, false⟩, .ok (some [(hd, bd)]))
    ∧ isSynced ⟨more, false⟩ = true := by
  obtain ⟨-, -, -, hlen, -⟩ := parsePage_page_inv pb hd bd [] hparse
  have h27 : 27 ≤ pb.length := by unfold pageTotal at hlen; omega
  obtain ⟨a, g2, rfl⟩ : ∃ a g2, g = a :: g2 := by
    cases g with
    | nil => exact absurd rfl hg
    | cons a g2 => exact ⟨a, g2, rfl⟩
  have hcap0 : captureAt (a :: (g2 ++ pb)) 0 = false := by
    have h0 := hnc 0 (by simp)
    rwa [List.cons_append] at h0
  have step1 : pageScan ((a :: g2) ++ pb) false = (⟨g2 ++ pb, true⟩, .skipped) := by
    rw [List.cons_append, pageScan]
    rw [if_neg (by simp only [List.length_cons, List.length_append]; omega)]
    rw [if_neg (by rw [hcap0]; simp)]
    rfl
  have step3 : pageScan ((g2 ++ pb) ++ more) true = (⟨more, false⟩, .page hd bd) := by
    rw [List.append_assoc]
    rw [pageScan_skip_garbage g2 (pb ++ more) (by simp only [List.length_append]; omega) ?hnc2]
    · exact pageScan_emit pb more hd bd true hcap hparse
    case hnc2 =>
      intro j hj
      rw [← List.append_assoc]
      rw [captureAt_append_left (g2 ++ pb) more j (by simp only [List.length_append]; omega)]
      have hj1 := hnc (j + 1) (by simp only [List.length_cons]; omega)
      rwa [List.cons_append, captureAt_cons_succ] at hj1
  have hdrop : (a :: g2).drop 1 = g2 := rfl
  have hs1 : submitBytes mSyncNew ((a :: g2) ++ pb) = some (⟨g2 ++ pb, true⟩, .ok none) := by
    rw [List.cons_append] at step1
    simp only [submitBytes, mSyncNew, pageOutStep, List.nil_append, List.cons_append,
      List.isEmpty_cons, Bool.false_eq_true, if_false, step1]
  obtain ⟨m0, m2, rfl⟩ : ∃ m0 m2, more = m0 :: m2 := by
    cases more with
    | nil => exact absurd rfl hmore
    | cons m0 m2 => exact ⟨m0, m2, rfl⟩
  have hshort : pageScan (m0 :: m2) false = (⟨m0 :: m2, false⟩, .needData) :=
    pageScan_short (m0 :: m2) false hmlt
  have hs2 : submitBytes ⟨g2 ++ pb, true⟩ (m0 :: m2)
      = some (⟨m0 :: m2, false⟩, .ok (some [(hd, bd)])) := by
    simp only [submitBytes, pageOutStep, List.isEmpty_cons, Bool.false_eq_true, if_false,
      step3, hvh, if_pos, submitLoop, submitLoopAux, List.length_cons, hshort]
  exact ⟨step1, hs1, rfl, step3, hs2, rfl⟩

/-- C4 witness: the amended theorem applied to one garbage byte, the
concrete page `pageC4`, and a one-byte follow-up submission. -/
theorem C4_sync_recovery_amended_witness :
    pageOutStep ⟨[0] ++ pageC4, false⟩ = (⟨[0].drop 1 ++ pageC4, true⟩, .skipped)
    ∧ submitBytes mSyncNew ([0] ++ pageC4) = some (⟨[0].drop 1 ++ pageC4, true⟩, .ok none)
    ∧ isSynced ⟨[0].drop 1 ++ pageC4, true⟩ = false
    ∧ pageOutStep ⟨([0].drop 1 ++ pageC4) ++ [0], true⟩ = (⟨[0], false⟩, .page pageC4 [])
    ∧ submitBytes ⟨[0].drop 1 ++ pageC4, true⟩ [0] = some (⟨[0], false⟩, .ok (some [(pageC4, [])]))
    ∧ isSynced ⟨[0], false⟩ = true :=
  C4_sync_recovery_amended [0] pageC4 [0] pageC4 []
    (by decide) (by decide) (by decide) pageC4_parse (by decide) (by decide) (by decide)

/-- C6: code-bug evidence.  On a fresh `Stream`, `packet_out` does return
`NoPages`; but `Stream::packet_in` sets the `has_pages` flag on success —
contradicting the flag's own doc comment, which ties it to pages — so after
merely queuing one packet for encoding, `packet_out` no longer returns
`NoPages` (it reports `InternalError`), although no page was ever accepted
via `page_in`. -/
theorem C6_noPages_code_divergence :
    (wPacketOut (wNew 0)).2 = .error .NoPages
    ∧ (wPacketIn (wNew 0) ⟨[1], true, false, 0⟩).has_pages = true
    ∧ (wPacketOut (wPacketIn (wNew 0) ⟨[1], true, false, 0⟩)).2 = .error .InternalError
    ∧ (wPacketOut (wPacketIn (wNew 0) ⟨[1], true, false, 0⟩)).2 ≠ .error .NoPages := by
  refine ⟨rfl, rfl, rfl, ?_⟩
  decide

set_option maxRecDepth 4096 in
/-- C7 counterexample: a `Stream` that has accepted one page whose only
packet is incomplete (one full lacing value of 255, no closing segment) is
exactly the need-more-data situation, and `packet_out` returns the error
value named `InternalError` — the very value used for internal-error
conditions — so the transient case is not a distinct, distinguishable
result as the claim states. -/
theorem C7_needMoreData_counterexample :
    (wPacketOut (wPageIn (wNew 7) 7 pageIncomplete).1).2
      = .error .InternalError := by
  decide

/-- C7 amended: whenever a `Stream` has pages but no complete packet is
buffered, `packet_out` fails with `InternalError` — a value distinct from
`OutOfSync` and from `NoPages`, so the caller can tell the transient case
from corruption/loss and from the no-pages protocol error, but it is the
same variant the wrapper uses for internal library errors, so those two
conditions are indistinguishable. -/
theorem C7_needMoreData_amended (s : WStream)
    (hp : s.has_pages = true) (hn : nextPacket s.entries [] = none) :
    (wPacketOut s).2 = .error .InternalError
    ∧ PacketOutError.InternalError ≠ PacketOutError.OutOfSync
    ∧ PacketOutError.InternalError ≠ PacketOutError.NoPages := by
  refine ⟨?_, by decide, by decide⟩
  unfold wPacketOut
  rw [if_neg (by rw [hp]; simp), hn]

set_option maxRecDepth 4096 in
/-- C7 witness: the amended theorem applied to the stream holding the
concrete incomplete page. -/
theorem C7_needMoreData_amended_witness :
    (wPacketOut (wPageIn (wNew 7) 7 pageIncomplete).1).2 = .error .InternalError
    ∧ PacketOutError.InternalError ≠ PacketOutError.OutOfSync
    ∧ PacketOutError.InternalError ≠ PacketOutError.NoPages :=
  C7_needMoreData_amended (wPageIn (wNew 7) 7 pageIncomplete).1 (by decide) (by decide)

/-- C5: code-bug evidence — submitting an empty byte slice panics instead of
being a no-op: `SyncState::write` unwraps `NonZeroUsize::try_from(bytes.len())`
with `expect`, which aborts for length 0.  The model returns `none` (the
panic outcome) rather than returning normally with the state unchanged. -/
theorem C5_empty_submission_panics (s : MSync) : submitBytes s [] = none := rfl

/-- C2: code-bug evidence.  The header-type accessors test membership in the
lists `[1,3,7]`, `[2,6,7]`, `[4,6,7]`, which misses the legal bit
combinations 5 (continued + last page) and 3 (continued + first page): for
type byte 5 both `continues_packet` (bit 0 set) and `ends_logical_stream`
(bit 2 set) return `false`, and for type byte 3 `begins_logical_stream`
(bit 1 set) returns `false`, contradicting the bit-layout the claim states. -/
theorem C2_header_type_bits_code_divergence :
    pageHeaderType (headerWithType 5) = 5
    ∧ Nat.testBit 5 0 = true
    ∧ pageContinuesPacket (headerWithType 5) = false
    ∧ Nat.testBit 5 2 = true
    ∧ pageEndsLogicalStream (headerWithType 5) = false
    ∧ pageHeaderType (headerWithType 3) = 3
    ∧ Nat.testBit 3 1 = true
    ∧ pageBeginsLogicalStream (headerWithType 3) = false := by decide

/-- C3 counterexample: a 27-byte header with the magic bytes and version 0 is
rejected as `TooShort`, although the claim says headers of at least 27 bytes
pass the length check (`HEADER_SIZE_MIN` in the source is 28, not 27). -/
theorem C3_validateHeader_counterexample :
    header27.length = 27
    ∧ header27.take 4 = [79, 103, 103, 83]
    ∧ header27.getD HEADER_VERSION 0 = 0
    ∧ validateHeader header27 = .error .TooShort := by decide

/-- C3 amended: `validate_header` fails with `TooShort` exactly below 28
bytes (not 27); otherwise fails with `NoMagicString` exactly when the first
four bytes are not `OggS`; otherwise fails with `BadVersion v` exactly when
the version byte `v` at offset 4 is nonzero; otherwise succeeds. -/
theorem C3_validateHeader_amended (h : List Nat) :
    (validateHeader h = .error .TooShort ↔ h.length < 28)
    ∧ (validateHeader h = .error .NoMagicString ↔
        28 ≤ h.length ∧ h.take 4 ≠ [79, 103, 103, 83])
    ∧ (∀ v, validateHeader h = .error (.BadVersion v) ↔
        28 ≤ h.length ∧ h.take 4 = [79, 103, 103, 83] ∧ h.getD 4 0 = v ∧ v ≠ 0)
    ∧ (validateHeader h = .ok () ↔
        28 ≤ h.length ∧ h.take 4 = [79, 103, 103, 83] ∧ h.getD 4 0 = 0) := by
  simp only [validateHeader, HEADER_SIZE_MIN, HEADER_VERSION]
  split_ifs <;> simp_all

/-- C8 counterexample: for granule bytes all `0xFF` the accessor translated
from the source returns the unsigned value `2 ^ 64 − 1`, not the signed value
−1 the claim states. -/
theorem C8_absgp_counterexample :
    pageAbsgp headerGranuleFF = 2 ^ 64 - 1
    ∧ pageAbsgpSigned headerGranuleFF = -1
    ∧ (pageAbsgp headerGranuleFF : Int) ≠ pageAbsgpSigned headerGranuleFF := by decide

/-- C8 amended: the granule-position accessors return the unsigned (`u64`)
little-endian reading of header bytes 6..14 (respectively the unsigned cast
of the raw packet's `granulepos`), which is congruent modulo `2 ^ 64` to the
signed interpretation the claim describes; the two's-complement encoding of
−1 surfaces as `2 ^ 64 − 1`. -/
theorem C8_absgp_amended (h : List Nat) (p : RawPacket) :
    pageAbsgp h < 2 ^ 64
    ∧ (pageAbsgp h : Int) % 2 ^ 64 = pageAbsgpSigned h % 2 ^ 64
    ∧ (pageAbsgpSigned h = -1 ↔ pageAbsgp h = 2 ^ 64 - 1)
    ∧ packetAbsgp p < 2 ^ 64
    ∧ (packetAbsgp p : Int) % 2 ^ 64 = p.granulepos % 2 ^ 64 := by
  have hu : pageAbsgp h < 2 ^ 64 := pageAbsgp_lt h
  have hup : pageAbsgpSigned h =
      (if pageAbsgp h < 2 ^ 63 then (pageAbsgp h : Int) else (pageAbsgp h : Int) - 2 ^ 64) := by
    simp [pageAbsgpSigned, pageAbsgp]
  have hu64 : (pageAbsgp h : Int) < 2 ^ 64 := by exact_mod_cast hu
  refine ⟨hu, ?_, ?_, ?_, ?_⟩
  · rw [hup]
    by_cases hc : pageAbsgp h < 2 ^ 63
    · rw [if_pos hc]
    · rw [if_neg hc]
      omega
  · rw [hup]
    by_cases hc : pageAbsgp h < 2 ^ 63
    · rw [if_pos hc]
      constructor
      · intro hh; omega
      · intro hh; omega
    · rw [if_neg hc]
      constructor
      · intro hh; omega
      · intro hh; omega
  · have h1 : 0 ≤ p.granulepos % 2 ^ 64 := Int.emod_nonneg _ (by norm_num)
    have h2 : p.granulepos % 2 ^ 64 < 2 ^ 64 := Int.emod_lt_of_pos _ (by norm_num)
    simp only [packetAbsgp]
    omega
  · have h1 : 0 ≤ p.granulepos % 2 ^ 64 := Int.emod_nonneg _ (by norm_num)
    simp only [packetAbsgp]
    rw [Int.toNat_of_nonneg h1]
    rw [Int.emod_emod_of_dvd _ (by norm_num)]

/-- C10 counterexample: a raw packet whose `b_o_s` and `e_o_s` are both the
documented value 1 fails with `InvalidBeginningOfStream`, not with
`InvalidEndOfStream` as the claim's second clause requires. -/
theorem C10_packetTryFrom_counterexample :
    packetTryFrom ⟨0, 1, 1, 0, 0, []⟩ = .error (.InvalidBeginningOfStream 1)
    ∧ packetTryFrom ⟨0, 1, 1, 0, 0, []⟩ ≠ .error (.InvalidEndOfStream 1) := by decide

/-- C10 amended: with a convertible `bytes` field, `Packet::try_from` fails
with `InvalidBeginningOfStream` whenever `b_o_s ∉ {0, 256}`; when `b_o_s` is
valid it fails with `InvalidEndOfStream` whenever `e_o_s ∉ {0, 512}`; it
accepts exactly when both flags are valid, and the resulting packet reports
begins/ends-of-stream as true exactly when the respective field is nonzero. -/
theorem C10_packetTryFrom_amended (p : RawPacket) (hb : 0 ≤ p.bytes) :
    (¬ (p.b_o_s = 0 ∨ p.b_o_s = 256) →
      packetTryFrom p = .error (.InvalidBeginningOfStream p.b_o_s))
    ∧ ((p.b_o_s = 0 ∨ p.b_o_s = 256) → ¬ (p.e_o_s = 0 ∨ p.e_o_s = 512) →
      packetTryFrom p = .error (.InvalidEndOfStream p.e_o_s))
    ∧ (packetTryFrom p = .ok p ↔
        ((p.b_o_s = 0 ∨ p.b_o_s = 256) ∧ (p.e_o_s = 0 ∨ p.e_o_s = 512)))
    ∧ (packetBeginsLogicalStream p = true ↔ p.b_o_s ≠ 0)
    ∧ (packetEndsLogicalStream p = true ↔ p.e_o_s ≠ 0) := by
  simp only [packetTryFrom, packetBeginsLogicalStream, packetEndsLogicalStream]
  have hnb : ¬ p.bytes < 0 := by omega
  split_ifs <;> simp_all

/-- C10 witness: applying the amended theorem at a packet with a valid
`b_o_s` of 256 and the invalid `e_o_s` value 1. -/
theorem C10_packetTryFrom_amended_witness :
    packetTryFrom ⟨0, 256, 1, 0, 0, []⟩ = .error (.InvalidEndOfStream 1) :=
  (C10_packetTryFrom_amended ⟨0, 256, 1, 0, 0, []⟩ (by decide)).2.1
    (by right; rfl) (by decide)

end OggXiph
